import Mathlib

/-!
Verification of the numpy backend shim (`numpy_array.py`) and of the
log-normal distribution identities asserted by `lognormal_test.py` from
the `stokhos/probability` repository.

Tensors are modelled as nested lists of integer scalars (`NDArr`), the
shape of a rectangular tensor as a `List Nat`, and the shim operations
as pure Lean functions mirroring the Python source.  Dtype bookkeeping
(`utils.numpy_dtype`, the `dtype`/`out_type` arguments) is not modelled:
every scalar is an `Int`.  Axis arguments are modelled as natural
numbers (non-negative axes).
-/

namespace NumpyShim

/-- A (possibly ragged) n-dimensional array: either a scalar leaf or a
list of subarrays.  This models a `numpy` `ndarray` with integer
entries. -/
inductive NDArr where
  | base : Int → NDArr
  | node : List NDArr → NDArr
deriving Repr

/-- Size-based induction principle for `NDArr` (nested inductive). -/
theorem NDArr.indOn (motive : NDArr → Prop) (hb : ∀ x, motive (.base x))
    (hn : ∀ xs, (∀ t ∈ xs, motive t) → motive (.node xs)) : ∀ t, motive t
  | .base x => hb x
  | .node xs => hn xs (fun t ht =>
      have : sizeOf t < 1 + sizeOf xs := Nat.lt_of_lt_of_le (List.sizeOf_lt_of_mem ht)
        (Nat.le_add_left _ _)
      NDArr.indOn motive hb hn t)
termination_by t => sizeOf t

/-- Element lookup along a path of indices, one index per axis. -/
def NDArr.get : NDArr → List Nat → Option Int
  | .base x, [] => some x
  | .node xs, i :: is =>
      match xs.get? i with
      | some c => c.get is
      | none => none
  | .base _, _ :: _ => none
  | .node _, [] => none

/-- `hasShape t sh` holds when `t` is a rectangular array of shape `sh`. -/
def hasShape : NDArr → List Nat → Bool
  | .base _, [] => true
  | .node xs, n :: ns => xs.length = n && xs.all (fun c => hasShape c ns)
  | .base _, _ :: _ => false
  | .node _, [] => false

/-- `np.flip` along a single (non-negative) axis. -/
def npFlip : NDArr → Nat → NDArr
  | .base x, _ => .base x
  | .node xs, 0 => .node xs.reverse
  | .node xs, a + 1 => .node (xs.map (fun c => npFlip c a))

/-- The `axis` argument of the shim's `reverse`: the source distinguishes
a scalar axis (`np.array(axis).ndim == 0`) from an iterable of axes. -/
inductive AxisSpec where
  | scalar : Nat → AxisSpec
  | list : List Nat → AxisSpec

/-- `_reverse` from `numpy_array.py`: a scalar axis is passed straight to
`np.flip`; a list of axes is folded over with `np.flip`. -/
def tfReverse (tensor : NDArr) (axis : AxisSpec) : NDArr :=
  match axis with
  | .scalar a => npFlip tensor a
  | .list as => as.foldl npFlip tensor

theorem npFlip_npFlip (t : NDArr) : ∀ a b, npFlip (npFlip t a) b = npFlip (npFlip t b) a := by
  induction t using NDArr.indOn with
  | hb x => intro a b; simp [npFlip]
  | hn xs ih =>
    intro a b
    match a, b with
    | 0, 0 => rfl
    | 0, b + 1 =>
      simp only [npFlip, List.map_reverse]
    | a + 1, 0 =>
      simp only [npFlip, List.map_reverse]
    | a + 1, b + 1 =>
      simp only [npFlip, List.map_map]
      congr 1
      refine List.map_congr_left (fun c hc => ?_)
      exact ih c hc a b

theorem npFlip_involutive (t : NDArr) : ∀ a, npFlip (npFlip t a) a = t := by
  induction t using NDArr.indOn with
  | hb x => intro a; simp [npFlip]
  | hn xs ih =>
    intro a
    match a with
    | 0 => simp [npFlip]
    | a + 1 =>
      simp only [npFlip, List.map_map]
      congr 1
      refine List.map_congr_left (fun c hc => ?_) |>.trans xs.map_id
      exact ih c hc a

theorem npFlip_foldl (t : NDArr) (a : Nat) (as : List Nat) :
    npFlip (as.foldl npFlip t) a = as.foldl npFlip (npFlip t a) := by
  induction as generalizing t with
  | nil => rfl
  | cons b bs ih => simp only [List.foldl_cons, ih, npFlip_npFlip]

/-- C10: applying the shim's `reverse` twice with the same axis argument
returns the original tensor, for a scalar axis as well as for a list of
axes. -/
theorem tfReverse_tfReverse (tensor : NDArr) (axis : AxisSpec) :
    tfReverse (tfReverse tensor axis) axis = tensor := by
  match axis with
  | .scalar a => exact npFlip_involutive tensor a
  | .list as =>
    show as.foldl npFlip (as.foldl npFlip tensor) = tensor
    induction as generalizing tensor with
    | nil => rfl
    | cons a bs ih =>
      simp only [List.foldl_cons, ← npFlip_foldl]
      rw [npFlip_involutive]
      exact ih tensor

/-! ### gather / gather_nd (C1, C2) -/

/-- Errors the numpy backend can signal: the shim's deliberate
`NotImplementedError`s, numpy's own `IndexError` for out-of-range
gather indices, and Python's `TypeError` for an ill-typed argument
list. -/
inductive NpError where
  | notImplemented : String → NpError
  | indexError : NpError
  | typeError : NpError

/-- Sequence a list of options: `some` of the list of values iff every
entry is `some`. -/
def optionAll {α : Type} : List (Option α) → Option (List α)
  | [] => some []
  | none :: _ => none
  | some a :: rest => (optionAll rest).map (a :: ·)

mutual

/-- Row-major flattening of an array (numpy `ravel`, as used by
`np.take` with `axis=None`). -/
def flattenArr : NDArr → List Int
  | .base x => [x]
  | .node xs => flattenArrList xs

/-- Flattening of a list of arrays, in order. -/
def flattenArrList : List NDArr → List Int
  | [] => []
  | c :: cs => flattenArr c ++ flattenArrList cs

end

/-- Resolution of a (possibly negative) numpy index against a dimension
of length `n`: valid iff `-n ≤ i < n`, negative indices count from the
end. -/
def resolveIdx (n : Nat) (i : Int) : Option Nat :=
  if 0 ≤ i then (if i < (n : Int) then some i.toNat else none)
  else (if 0 ≤ i + (n : Int) then some (i + (n : Int)).toNat else none)

mutual

/-- `np.take` with `axis=None`: indices (of any shape) select from the
flattened array. -/
def takeFlatGo (flat : List Int) : NDArr → Option NDArr
  | .base i => (resolveIdx flat.length i).map (fun k => .base (flat.getD k 0))
  | .node is => (takeFlatGoList flat is).map .node

/-- `takeFlatGo` on each member of a list of index arrays. -/
def takeFlatGoList (flat : List Int) : List NDArr → Option (List NDArr)
  | [] => some []
  | c :: cs =>
      match takeFlatGo flat c with
      | none => none
      | some r => (takeFlatGoList flat cs).map (r :: ·)

end

mutual

/-- Selection of subarrays of `xs` following the shape of the index
array `idx`. -/
def substIdx (xs : List NDArr) : NDArr → Option NDArr
  | .base i => (resolveIdx xs.length i).map (fun k => xs.getD k (.node []))
  | .node is => (substIdxList xs is).map .node

/-- `substIdx` on each member of a list of index arrays. -/
def substIdxList (xs : List NDArr) : List NDArr → Option (List NDArr)
  | [] => some []
  | c :: cs =>
      match substIdx xs c with
      | none => none
      | some r => (substIdxList xs cs).map (r :: ·)

end

/-- `np.take` along axis `a`. -/
def takeAxis (idx : NDArr) : NDArr → Nat → Option NDArr
  | .node xs, 0 => substIdx xs idx
  | .node xs, a + 1 => (optionAll (xs.map (fun c => takeAxis idx c a))).map .node
  | .base _, _ => none

/-- `np.take(params, indices, axis=axis)`; `none` models an
`IndexError` / invalid-axis error raised by numpy. -/
def npTake (params indices : NDArr) (axis : Option Nat) : Option NDArr :=
  match axis with
  | none => takeFlatGo (flattenArr params) indices
  | some a => takeAxis indices params a

/-- `_gather` from `numpy_array.py`: a non-`None` `validate_indices` or a
non-zero `batch_dims` raises `NotImplementedError`; otherwise the call is
delegated to `np.take(params, indices, axis=axis)`. -/
def _gather (params indices : NDArr) (validateIndices : Option Bool)
    (axis : Option Nat) (batchDims : Int) (name : Option String) :
    Except NpError NDArr :=
  if validateIndices ≠ none then
    .error (.notImplemented "Argument `validate_indices != None` is currently unimplemented.")
  else if batchDims ≠ 0 then
    .error (.notImplemented "Argument `batch_dims != 0` is currently unimplemented.")
  else
    match npTake params indices axis with
    | some r => .ok r
    | none => .error .indexError

/-- `_gather_nd` from `numpy_array.py`: unconditionally raises
`NotImplementedError`. -/
def _gather_nd (params indices : NDArr) (batchDims : Int) (name : Option String) :
    Except NpError NDArr :=
  .error (.notImplemented "")

/-- C1: `_gather` raises `NotImplementedError` iff `validate_indices` is
non-default (non-`None`) or `batch_dims` is non-zero; otherwise it
returns exactly the result of `np.take(params, indices, axis=axis)`
(with numpy's own `IndexError` for invalid indices, never a silently
wrong value). -/
theorem gather_notImplemented_iff (params indices : NDArr) (vi : Option Bool)
    (axis : Option Nat) (bd : Int) (nm : Option String) :
    ((∃ msg, _gather params indices vi axis bd nm = .error (.notImplemented msg)) ↔
      (vi ≠ none ∨ bd ≠ 0)) ∧
    (vi = none → bd = 0 →
      _gather params indices vi axis bd nm =
        match npTake params indices axis with
        | some r => Except.ok r
        | none => Except.error NpError.indexError) := by
  constructor
  · constructor
    · rintro ⟨msg, h⟩
      by_contra hcon
      push_neg at hcon
      obtain ⟨h1, h2⟩ := hcon
      simp only [_gather, h1, h2, ne_eq, not_true_eq_false, if_false, ite_false,
        not_false_eq_true, if_true] at h
      split at h <;> simp_all
    · intro h
      unfold _gather
      rcases h with h | h
      · simp [h]
      · by_cases hvi : vi = none
        · simp [hvi, h]
        · simp [hvi]
  · intro h1 h2
    simp [_gather, h1, h2]

/-- Witness for C1: a default call gathers element 1, a call with
`validate_indices` set raises. -/
theorem gather_notImplemented_iff_witness :
    _gather (.node [.base 7, .base 8]) (.base 1) none none 0 none = .ok (.base 8) ∧
    (∃ msg, _gather (.node [.base 7, .base 8]) (.base 1) (some true) none 0 none =
      .error (.notImplemented msg)) := by
  constructor
  · exact ((gather_notImplemented_iff (.node [.base 7, .base 8]) (.base 1) none none 0
      none).2 rfl rfl).trans (by rfl)
  · exact (gather_notImplemented_iff (.node [.base 7, .base 8]) (.base 1) (some true) none 0
      none).1.mpr (Or.inl (by simp))

/-- C2: `_gather_nd` raises `NotImplementedError` on every input and
never returns a value. -/
theorem gather_nd_always_raises (params indices : NDArr) (bd : Int) (nm : Option String) :
    (∃ msg, _gather_nd params indices bd nm = .error (.notImplemented msg)) ∧
    ∀ r, _gather_nd params indices bd nm ≠ .ok r := by
  exact ⟨⟨"", rfl⟩, fun r h => by simp [_gather_nd] at h⟩

/-! ### shape, ones_like, zeros_like (C3) -/

/-- A value in the shim's dynamic world: either a numpy-native array or
a tensor of the reference framework (`tf`). -/
inductive BVal where
  | npArr : NDArr → BVal
  | tfTensor : NDArr → BVal

/-- The underlying array of a backend value (`np.array(input)`). -/
def BVal.arr : BVal → NDArr
  | .npArr t => t
  | .tfTensor t => t

/-- The `isinstance(s, (np.ndarray, np.generic))` test of the source. -/
def BVal.isNumpyNdarray : BVal → Bool
  | .npArr _ => true
  | .tfTensor _ => false

/-- The numpy shape of a nested array (`np.array(input).shape`),
following first children. -/
def dims : NDArr → List Nat
  | .base _ => []
  | .node [] => [0]
  | .node (c :: cs) => (c :: cs).length :: dims c

/-- `_shape` from `numpy_array.py`:
`np.array(np.array(input).shape).astype(...)`, always a numpy-native
1-D array (the dtype cast is not modelled). -/
def _shape (input : BVal) : BVal :=
  .npArr (.node ((dims input.arr).map (fun n => .base (n : Int))))

/-- An array of the given shape with every entry `v` (models `np.ones` /
`np.zeros`, dtypes ignored). -/
def npFull (v : Int) : List Nat → NDArr
  | [] => .base v
  | n :: ns => .node (List.replicate n (npFull v ns))

/-- Dimensions encoded in a 1-D shape array. -/
def shapeDims (s : NDArr) : List Nat := (flattenArr s).map Int.toNat

/-- `tf.ones(s, ...)`: the reference framework's `ones`, returning a
framework-native (non-numpy) tensor. -/
def tfOnes (s : NDArr) : BVal := .tfTensor (npFull 1 (shapeDims s))

/-- `tf.zeros(s, ...)`: the reference framework's `zeros`. -/
def tfZeros (s : NDArr) : BVal := .tfTensor (npFull 0 (shapeDims s))

/-- `_ones_like` from `numpy_array.py`: computes `s = _shape(input)`; if
`s` is a numpy array it returns `np.ones(s, ...)`, otherwise it falls
back to `tf.ones(s, ...)`. -/
def _ones_like (input : BVal) : BVal :=
  let s := _shape input
  if s.isNumpyNdarray then .npArr (npFull 1 (shapeDims s.arr)) else tfOnes s.arr

/-- `_zeros_like` from `numpy_array.py`, analogous to `_ones_like`. -/
def _zeros_like (input : BVal) : BVal :=
  let s := _shape input
  if s.isNumpyNdarray then .npArr (npFull 0 (shapeDims s.arr)) else tfZeros s.arr

/-- C3: `_shape` always returns a numpy-native array, so `_ones_like`
and `_zeros_like` always take the numpy branch: the `tf.ones`/`tf.zeros`
fallback is unreachable and the results are numpy-native. -/
theorem ones_like_zeros_like_numpy (input : BVal) :
    (_shape input).isNumpyNdarray = true ∧
    (_ones_like input).isNumpyNdarray = true ∧
    (_zeros_like input).isNumpyNdarray = true := by
  refine ⟨rfl, ?_, ?_⟩ <;> simp [_ones_like, _zeros_like, _shape, BVal.isNumpyNdarray]

/-! ### slice (C8) -/

/-- Python list-slicing `xs[b:e]` for non-negative bounds (`e = none`
for an omitted stop, as produced by `slice(b, None)`). -/
def sliceList (xs : List NDArr) (b : Int) (e : Option Int) : List NDArr :=
  match e with
  | none => xs.drop b.toNat
  | some e => (xs.take e.toNat).drop b.toNat

/-- Numpy basic indexing by a tuple of slices: slice `i` of the tuple is
applied along axis `i`; remaining axes are kept whole. -/
def npIndexSlices : NDArr → List (Int × Option Int) → NDArr
  | t, [] => t
  | .base x, _ :: _ => .base x
  | .node xs, (b, e) :: rest => .node ((sliceList xs b e).map (fun c => npIndexSlices c rest))

/-- `_slice` from `numpy_array.py`:
`input_[tuple(slice(b, b + s if s != -1 else None) for b, s in zip(begin, size))]`. -/
def _slice (input_ : NDArr) (begin_ size : List Int) : NDArr :=
  npIndexSlices input_
    ((begin_.zip size).map (fun p => (p.1, if p.2 = -1 then none else some (p.1 + p.2))))

/-- The per-axis argument conditions of claim C8: `begin` and `size`
have equal length at most the rank, `0 ≤ begin[i]`, and each `size[i]`
is either `-1` or non-negative with `begin[i] + size[i] ≤ dim_i`. -/
def sliceArgsOk : List Int → List Int → List Nat → Bool
  | [], [], _ => true
  | b :: bs, s :: ss, n :: ns =>
      (0 ≤ b && (s = -1 || (0 ≤ s && b + s ≤ (n : Int)))) && sliceArgsOk bs ss ns
  | _, _, _ => false

/-- The expected extents of the sliced axes: `size[i]`, with `-1`
replaced by `dim_i - begin[i]` (slice to the end of the dimension). -/
def effShape : List Int → List Int → List Nat → List Nat
  | b :: bs, s :: ss, n :: ns =>
      (if s = -1 then n - b.toNat else s.toNat) :: effShape bs ss ns
  | _, _, _ => []

/-- Pointwise shift of an index path by the `begin` offsets. -/
def shiftIdx : List Int → List Nat → List Nat
  | b :: bs, j :: js => (b.toNat + j) :: shiftIdx bs js
  | _, _ => []

/-- Pointwise strict bound of an index path by a shape. -/
def allLt : List Nat → List Nat → Bool
  | [], [] => true
  | j :: js, n :: ns => (decide (j < n)) && allLt js ns
  | _, _ => false

theorem hasShape_node {xs : List NDArr} {n : Nat} {ns : List Nat} :
    hasShape (.node xs) (n :: ns) = true ↔
      xs.length = n ∧ ∀ c ∈ xs, hasShape c ns = true := by
  simp [hasShape, List.all_eq_true]

theorem slice_cons (xs : List NDArr) (b0 s0 : Int) (bs ss : List Int) :
    _slice (.node xs) (b0 :: bs) (s0 :: ss) =
      .node ((sliceList xs b0 (if s0 = -1 then none else some (b0 + s0))).map
        (fun c => _slice c bs ss)) := rfl

/-- C8: under the claim's per-axis conditions, the shim's `slice`
returns the subarray whose extent along each sliced axis `i` is the
half-open range `[begin[i], begin[i] + size[i])` (to the end of the
dimension when `size[i] = -1`), with trailing axes unchanged: the
result has the expected shape and its element at path `j₁ ++ j₂` is the
input's element at `(begin + j₁) ++ j₂`. -/
theorem slice_spec (t : NDArr) (sh : List Nat) (b s : List Int)
    (hsh : hasShape t sh = true) (hargs : sliceArgsOk b s sh = true) :
    hasShape (_slice t b s) (effShape b s sh ++ sh.drop b.length) = true ∧
    ∀ j1 j2, allLt j1 (effShape b s sh) = true →
      (_slice t b s).get (j1 ++ j2) = t.get (shiftIdx b j1 ++ j2) := by
  induction b generalizing s sh t with
  | nil =>
    match s, sh with
    | [], sh =>
      refine ⟨by simpa [_slice, npIndexSlices, effShape] using hsh, ?_⟩
      intro j1 j2 hj
      match j1, hj with
      | [], _ => simp [_slice, npIndexSlices, shiftIdx]
      | j :: js, hj => simp [effShape, allLt] at hj
    | s0 :: ss, sh => simp [sliceArgsOk] at hargs
  | cons b0 bs ih =>
    match s, sh, t with
    | [], sh, t => simp [sliceArgsOk] at hargs
    | s0 :: ss, [], t => simp [sliceArgsOk] at hargs
    | s0 :: ss, n :: ns, .base x => simp [hasShape] at hsh
    | s0 :: ss, n :: ns, .node xs =>
      simp only [sliceArgsOk, Bool.and_eq_true] at hargs
      obtain ⟨⟨hb0, hs0⟩, hrest⟩ := hargs
      rw [hasShape_node] at hsh
      obtain ⟨hlen, hmem⟩ := hsh
      have hb0' : (0 : Int) ≤ b0 := by simpa using hb0
      have heff : effShape (b0 :: bs) (s0 :: ss) (n :: ns) =
          (if s0 = -1 then n - b0.toNat else s0.toNat) :: effShape bs ss ns := rfl
      have key : ∀ L : List NDArr, (∀ c ∈ L, c ∈ xs) →
          L.length = (if s0 = -1 then n - b0.toNat else s0.toNat) →
          (∀ j0, j0 < (if s0 = -1 then n - b0.toNat else s0.toNat) →
            L.get? j0 = xs.get? (b0.toNat + j0)) →
          hasShape (NDArr.node (L.map (fun c => _slice c bs ss)))
              (effShape (b0 :: bs) (s0 :: ss) (n :: ns) ++
                (n :: ns).drop (b0 :: bs).length) = true ∧
          ∀ j1 j2, allLt j1 (effShape (b0 :: bs) (s0 :: ss) (n :: ns)) = true →
            (NDArr.node (L.map (fun c => _slice c bs ss))).get (j1 ++ j2) =
              (NDArr.node xs).get (shiftIdx (b0 :: bs) j1 ++ j2) := by
        intro L hLmem hLlen hLget
        constructor
        · rw [heff]
          simp only [List.length_cons, List.drop_succ_cons, List.cons_append]
          rw [hasShape_node]
          refine ⟨by simpa using hLlen, ?_⟩
          intro c hc
          obtain ⟨c0, hc0, rfl⟩ := List.mem_map.mp hc
          exact (ih c0 ns ss (hmem c0 (hLmem c0 hc0)) hrest).1
        · intro j1 j2 hj
          rw [heff] at hj
          match j1, hj with
          | j0 :: js, hj =>
            simp only [allLt, Bool.and_eq_true, decide_eq_true_eq] at hj
            obtain ⟨hj0, hjs⟩ := hj
            have hshift : shiftIdx (b0 :: bs) (j0 :: js) =
              (b0.toNat + j0) :: shiftIdx bs js := rfl
            rw [hshift]
            show (NDArr.node (L.map (fun c => _slice c bs ss))).get (j0 :: (js ++ j2)) =
              (NDArr.node xs).get ((b0.toNat + j0) :: (shiftIdx bs js ++ j2))
            simp only [NDArr.get, List.get?_map, hLget j0 hj0]
            cases hx : xs.get? (b0.toNat + j0) with
            | none => rfl
            | some c =>
              simp only [Option.map_some']
              exact (ih c ns ss (hmem c (List.get?_mem hx)) hrest).2 js j2 hjs
      rw [slice_cons]
      by_cases hs0e : s0 = -1
      · rw [if_pos hs0e]
        refine key (sliceList xs b0 none) ?_ ?_ ?_
        · intro c hc
          exact List.mem_of_mem_drop (by simpa [sliceList] using hc)
        · simp [sliceList, hlen, if_pos hs0e]
        · intro j0 hj0
          simp [sliceList, List.get?_drop]
      · rw [if_neg hs0e]
        rcases Bool.or_eq_true _ _ |>.mp hs0 with h | h
        · exact absurd (by simpa using h) hs0e
        rw [Bool.and_eq_true] at h
        have hs0n' : (0 : Int) ≤ s0 := by simpa using h.1
        have hbs' : b0 + s0 ≤ (n : Int) := by simpa using h.2
        refine key (sliceList xs b0 (some (b0 + s0))) ?_ ?_ ?_
        · intro c hc
          simp only [sliceList] at hc
          exact List.mem_of_mem_take (List.mem_of_mem_drop hc)
        · simp only [sliceList, List.length_drop, List.length_take, hlen, if_neg hs0e]
          omega
        · intro j0 hj0
          rw [if_neg hs0e] at hj0
          have hlt : b0.toNat + j0 < (b0 + s0).toNat := by omega
          simp only [sliceList, List.get?_drop]
          exact List.get?_take hlt

/-! ### split (C9) -/

/-- Consecutive segments of `xs` cut at the absolute indices `bs`
(numpy `np.split` boundary semantics): the piece before each boundary,
then the remainder after the last boundary.  `prev` is the previous
boundary. -/
def splitAt0 (xs : List NDArr) (prev : Nat) : List Nat → List (List NDArr)
  | [] => [xs.drop prev]
  | b :: bs => ((xs.take b).drop prev) :: splitAt0 xs b bs

/-- `np.split(value, indices, axis)` for a 1-D list of split indices. -/
def npSplit : NDArr → List Nat → Nat → List NDArr
  | .node xs, idxs, 0 => (splitAt0 xs 0 idxs).map .node
  | .node xs, idxs, a + 1 =>
      (List.range (idxs.length + 1)).map
        (fun j => .node (xs.map (fun c => (npSplit c idxs a).getD j (.node []))))
  | .base _, _, _ => []

/-- `np.cumsum` on an integer list. -/
def cumsumI : List Int → List Int
  | [] => []
  | x :: xs => x :: (cumsumI xs).map (fun c => x + c)

/-- `np.cumsum` on a natural-number list. -/
def cumsumN : List Nat → List Nat
  | [] => []
  | x :: xs => x :: (cumsumN xs).map (fun c => x + c)

/-- The `indices_or_sections` resolution step of `_split` from
`numpy_array.py`: when the 1-D sizes list contains a `-1`, that entry is
replaced by `int(max(0, np.array(value).shape[axis] - total_splits))`
where `total_splits` sums the non-`-1` entries. -/
def splitResolved (value : NDArr) (sizes : List Int) (axis : Nat) : List Int :=
  if sizes.contains (-1) then
    let total := (sizes.filter (fun e => e ≠ -1)).sum
    let remainder : Int := max 0 (((dims value).getD axis 0 : Int) - total)
    sizes.map (fun e => if e = -1 then remainder else e)
  else sizes

/-- `_split` from `numpy_array.py`, in the `indices_or_sections.ndim == 1`
branch (a 1-D list of sizes): after `-1` resolution, the cumulative sums
without the last entry become numpy split indices, and the result is
`np.split(value, indices_or_sections, axis)`. -/
def tfSplit (value : NDArr) (sizes : List Int) (axis : Nat) : List NDArr :=
  let idxs : List Nat := ((cumsumI (splitResolved value sizes axis)).dropLast).map Int.toNat
  npSplit value idxs axis

/-- The sizes list with `-1` replaced by the remaining length along the
axis (as claim C9 reads it), over a dimension `d`. -/
def resolveSizes (sizes : List Int) (d : Nat) : List Nat :=
  let total := ((sizes.filter (fun e => e ≠ -1)).map Int.toNat).sum
  sizes.map (fun e => if e = -1 then d - total else e.toNat)

/-- Counterexample to C9 as stated: splitting a length-5 axis with sizes
`[1, 1]` (non-negative, no `-1`, sum `2 ≤ 5`) yields a second piece of
length 4, not 1: numpy's final split segment extends to the end of the
axis. -/
theorem split_claim_counterexample :
    (tfSplit (.node [.base 0, .base 1, .base 2, .base 3, .base 4]) [1, 1] 0).length = 2 ∧
    (tfSplit (.node [.base 0, .base 1, .base 2, .base 3, .base 4]) [1, 1] 0).getD 1
        (.node []) = .node [.base 1, .base 2, .base 3, .base 4] ∧
    hasShape ((tfSplit (.node [.base 0, .base 1, .base 2, .base 3, .base 4]) [1, 1] 0).getD 1
        (.node [])) [1] = false := by
  exact ⟨rfl, rfl, rfl⟩

theorem length_cumsumN (l : List Nat) : (cumsumN l).length = l.length := by
  induction l with
  | nil => rfl
  | cons x xs ih => simp [cumsumN, ih]

theorem splitAt0_length (xs : List NDArr) (prev : Nat) (bs : List Nat) :
    (splitAt0 xs prev bs).length = bs.length + 1 := by
  induction bs generalizing prev with
  | nil => rfl
  | cons b bs ih => simp [splitAt0, ih]

theorem splitAt0_shift (bs : List Nat) (xs : List NDArr) (m p : Nat) :
    splitAt0 xs (m + p) (bs.map (fun b => m + b)) = splitAt0 (xs.drop m) p bs := by
  induction bs generalizing p with
  | nil =>
    simp only [List.map_nil, splitAt0, List.drop_drop]
  | cons b bs ih =>
    simp only [List.map_cons, splitAt0, ih]
    congr 1
    rw [← List.drop_drop, List.drop_take, Nat.add_sub_cancel_left]

theorem getD_map_fn {α β : Type} (f : α → β) (L : List α) (j : Nat) (d : α) :
    (L.map f).getD j (f d) = f (L.getD j d) := by
  induction L generalizing j with
  | nil => simp
  | cons a l ih =>
    cases j with
    | zero => simp
    | succ j => simpa using ih j

theorem getD_range_map {β : Type} (f : Nat → β) (m j : Nat) (d : β) (hj : j < m) :
    ((List.range m).map f).getD j d = f j := by
  rw [List.getD_eq_getElem?_getD, List.getElem?_map, List.getElem?_range hj]
  rfl

theorem dims_getD (t : NDArr) (sh : List Nat) (hsh : hasShape t sh = true) :
    ∀ k, k < sh.length → (∀ i, i < k → sh.getD i 0 ≠ 0) →
      (dims t).getD k 0 = sh.getD k 0 := by
  induction t using NDArr.indOn generalizing sh with
  | hb x =>
    intro k hk
    match sh with
    | _ :: _ => simp [hasShape] at hsh
  | hn xs ih =>
    intro k hk hnz
    match sh with
    | [] => simp at hk
    | n :: ns =>
      rw [hasShape_node] at hsh
      obtain ⟨hlen, hmem⟩ := hsh
      cases k with
      | zero =>
        match xs with
        | [] => simpa [dims] using hlen
        | c :: cs => simpa [dims] using hlen
      | succ k =>
        have hn0 : n ≠ 0 := by simpa using hnz 0 (Nat.succ_pos k)
        match xs with
        | [] =>
          exfalso
          have h0 : (0 : Nat) = n := hlen
          omega
        | c :: cs =>
          simp only [dims, List.getD_cons_succ]
          exact ih c (by simp) ns (hmem c (by simp)) k (by simpa using hk)
            (fun i hi => hnz (i + 1) (by omega))

theorem cumsumI_nonneg (l : List Int) (h : ∀ e ∈ l, 0 ≤ e) :
    ∀ c ∈ cumsumI l, 0 ≤ c := by
  induction l with
  | nil => intro c hc; simp [cumsumI] at hc
  | cons x xs ih =>
    intro c hc
    have hx : (0 : Int) ≤ x := h x (by simp)
    simp only [cumsumI, List.mem_cons, List.mem_map] at hc
    rcases hc with rfl | ⟨c0, hc0, rfl⟩
    · exact hx
    · have h0 := ih (fun e he => h e (by simp [he])) c0 hc0
      omega

theorem cumsumI_toNat (l : List Int) (h : ∀ e ∈ l, 0 ≤ e) :
    (cumsumI l).map Int.toNat = cumsumN (l.map Int.toNat) := by
  induction l with
  | nil => rfl
  | cons x xs ih =>
    have hx : 0 ≤ x := h x (by simp)
    have hxs : ∀ e ∈ xs, (0 : Int) ≤ e := fun e he => h e (by simp [he])
    simp only [cumsumI, List.map_cons, cumsumN, List.map_map, ← ih hxs]
    congr 1
    refine List.map_congr_left (fun c hc => ?_)
    have := cumsumI_nonneg xs hxs c hc
    simp only [Function.comp_apply]
    omega

theorem sum_toNat_eq (l : List Int) (h : ∀ e ∈ l, 0 ≤ e) :
    ((l.map Int.toNat).sum : Int) = l.sum := by
  induction l with
  | nil => rfl
  | cons x xs ih =>
    have hx : 0 ≤ x := h x (by simp)
    have hih := ih (fun e he => h e (by simp [he]))
    simp only [List.map_cons, List.sum_cons, Nat.cast_add, hih]
    omega

theorem splitAt0_spec (nss : List Nat) : ∀ xs : List NDArr, nss ≠ [] →
    nss.sum = xs.length → ∀ j, j < nss.length →
      (((splitAt0 xs 0 ((cumsumN nss).dropLast)).getD j []).length = nss.getD j 0 ∧
       ∀ c ∈ (splitAt0 xs 0 ((cumsumN nss).dropLast)).getD j [], c ∈ xs) := by
  induction nss with
  | nil => intro xs h; exact absurd rfl h
  | cons m ms ih =>
    intro xs _ hsum j hj
    match ms with
    | [] =>
      match j, hj with
      | 0, _ =>
        have hm : m = xs.length := by simpa using hsum
        simp [cumsumN, splitAt0, hm]
    | m2 :: ms2 =>
      have hcs : cumsumN (m :: m2 :: ms2) =
          m :: (cumsumN (m2 :: ms2)).map (fun c => m + c) := rfl
      have hne2 : cumsumN (m2 :: ms2) ≠ [] := by
        intro hc
        have := length_cumsumN (m2 :: ms2)
        rw [hc] at this
        simp at this
      have hdl : (cumsumN (m :: m2 :: ms2)).dropLast =
          m :: ((cumsumN (m2 :: ms2)).dropLast).map (fun c => m + c) := by
        rw [hcs, List.dropLast_cons_of_ne_nil (by simpa using hne2), List.map_dropLast]
      have hmle : m ≤ xs.length := by
        simp only [List.sum_cons] at hsum
        omega
      rw [hdl]
      match j, hj with
      | 0, _ =>
        constructor
        · simp [splitAt0, List.length_take, hmle]
        · intro c hc
          simp only [splitAt0, List.getD_cons_zero, List.drop_zero] at hc
          exact List.mem_of_mem_take hc
      | j + 1, hj =>
        have hrw : splitAt0 xs 0 (m :: ((cumsumN (m2 :: ms2)).dropLast).map (fun c => m + c)) =
            ((xs.take m).drop 0) ::
              splitAt0 xs m (((cumsumN (m2 :: ms2)).dropLast).map (fun c => m + c)) := rfl
        have hshift : splitAt0 xs m (((cumsumN (m2 :: ms2)).dropLast).map (fun c => m + c)) =
            splitAt0 (xs.drop m) 0 ((cumsumN (m2 :: ms2)).dropLast) := by
          have := splitAt0_shift ((cumsumN (m2 :: ms2)).dropLast) xs m 0
          simpa using this
        rw [hrw, hshift]
        have hsum2 : (m2 :: ms2).sum = (xs.drop m).length := by
          simp only [List.sum_cons] at hsum ⊢
          simp only [List.length_drop]
          omega
        have hj2 : j < (m2 :: ms2).length := by simpa using hj
        obtain ⟨hl, hmem⟩ := ih (xs.drop m) (by simp) hsum2 j hj2
        refine ⟨by simpa using hl, ?_⟩
        intro c hc
        simp only [List.getD_cons_succ] at hc
        exact List.mem_of_mem_drop (hmem c hc)

theorem npSplit_length (t : NDArr) (sh : List Nat) (idxs : List Nat) (axis : Nat)
    (hsh : hasShape t sh = true) (hax : axis < sh.length) :
    (npSplit t idxs axis).length = idxs.length + 1 := by
  match axis, t, sh with
  | _, _, [] => simp at hax
  | 0, .base x, n :: ns => simp [hasShape] at hsh
  | a + 1, .base x, n :: ns => simp [hasShape] at hsh
  | 0, .node xs, n :: ns => simp [npSplit, splitAt0_length]
  | a + 1, .node xs, n :: ns => simp [npSplit]

theorem npSplit_shape (axis : Nat) : ∀ (t : NDArr) (sh : List Nat) (ns : List Nat),
    hasShape t sh = true → axis < sh.length → ns ≠ [] → ns.sum = sh.getD axis 0 →
    ∀ j, j < ns.length →
      hasShape ((npSplit t ((cumsumN ns).dropLast) axis).getD j (.node []))
        (sh.set axis (ns.getD j 0)) = true := by
  induction axis with
  | zero =>
    intro t sh ns hsh hax hne hsum j hj
    match t, sh with
    | .base x, n :: ns' => simp [hasShape] at hsh
    | .node xs, n :: ns' =>
      rw [hasShape_node] at hsh
      obtain ⟨hlen, hmem⟩ := hsh
      have hsum' : ns.sum = xs.length := by
        simpa [hlen] using hsum
      obtain ⟨hl, hm⟩ := splitAt0_spec ns xs hne hsum' j hj
      have hgoal : (npSplit (NDArr.node xs) ((cumsumN ns).dropLast) 0).getD j (.node []) =
          .node ((splitAt0 xs 0 ((cumsumN ns).dropLast)).getD j []) := by
        show ((splitAt0 xs 0 ((cumsumN ns).dropLast)).map NDArr.node).getD j (.node []) =
          .node ((splitAt0 xs 0 ((cumsumN ns).dropLast)).getD j [])
        exact getD_map_fn NDArr.node _ j []
      rw [hgoal, show (n :: ns').set 0 (ns.getD j 0) = ns.getD j 0 :: ns' from rfl,
        hasShape_node]
      exact ⟨hl, fun c hc => hmem c (hm c hc)⟩
  | succ a ih =>
    intro t sh ns hsh hax hne hsum j hj
    match t, sh with
    | .base x, n :: sh' => simp [hasShape] at hsh
    | .node xs, n :: sh' =>
      rw [hasShape_node] at hsh
      obtain ⟨hlen, hmem⟩ := hsh
      have hjlt : j < ((cumsumN ns).dropLast).length + 1 := by
        have h1 := length_cumsumN ns
        have h2 : (cumsumN ns).length - 1 < ns.length := by
          rw [h1]
          have : ns.length ≠ 0 := fun hc => hne (List.length_eq_zero.mp hc)
          omega
        simp only [List.length_dropLast, h1]
        omega
      have hgoal : (npSplit (NDArr.node xs) ((cumsumN ns).dropLast) (a + 1)).getD j (.node []) =
          .node (xs.map (fun c => (npSplit c ((cumsumN ns).dropLast) a).getD j (.node []))) := by
        show ((List.range (((cumsumN ns).dropLast).length + 1)).map
          (fun j => NDArr.node (xs.map
            (fun c => (npSplit c ((cumsumN ns).dropLast) a).getD j (.node []))))).getD j
            (.node []) = _
        exact getD_range_map _ _ j _ hjlt
      rw [hgoal, show (n :: sh').set (a + 1) (ns.getD j 0) =
        n :: sh'.set a (ns.getD j 0) from rfl, hasShape_node]
      refine ⟨by simpa using hlen, ?_⟩
      intro c hc
      obtain ⟨c0, hc0, rfl⟩ := List.mem_map.mp hc
      exact ih c0 sh' ns (hmem c0 hc0) (by simpa using hax) hne
        (by simpa using hsum) j hj

theorem npSplit_shape_degenerate : ∀ (axis : Nat) (t : NDArr) (sh : List Nat)
    (idxs : List Nat) (k : Nat),
    hasShape t sh = true → axis < sh.length → k < axis → sh.getD k 0 = 0 →
    ∀ j e, j < idxs.length + 1 →
      hasShape ((npSplit t idxs axis).getD j (.node [])) (sh.set axis e) = true := by
  intro axis
  induction axis with
  | zero => intro t sh idxs k _ _ hk; simp at hk
  | succ a ih =>
    intro t sh idxs k hsh hax hk hz j e hj
    match t, sh with
    | .base x, n :: sh' => simp [hasShape] at hsh
    | .node xs, n :: sh' =>
      rw [hasShape_node] at hsh
      obtain ⟨hlen, hmem⟩ := hsh
      have hgoal : (npSplit (NDArr.node xs) idxs (a + 1)).getD j (.node []) =
          .node (xs.map (fun c => (npSplit c idxs a).getD j (.node []))) := by
        show ((List.range (idxs.length + 1)).map
          (fun j => NDArr.node (xs.map
            (fun c => (npSplit c idxs a).getD j (.node []))))).getD j (.node []) = _
        exact getD_range_map _ _ j _ hj
      rw [hgoal, show (n :: sh').set (a + 1) e = n :: sh'.set a e from rfl, hasShape_node]
      cases k with
      | zero =>
        have hn : n = 0 := by simpa using hz
        have hxs : xs = [] := List.length_eq_zero.mp (by omega)
        subst hxs
        exact ⟨by simpa using hlen, by simp⟩
      | succ k =>
        refine ⟨by simpa using hlen, ?_⟩
        intro c hc
        obtain ⟨c0, hc0, rfl⟩ := List.mem_map.mp hc
        exact ih c0 sh' idxs k (hmem c0 hc0) (by simpa using hax) (by omega)
          (by simpa using hz) j e hj

theorem length_cumsumI (l : List Int) : (cumsumI l).length = l.length := by
  induction l with
  | nil => rfl
  | cons x xs ih => simp [cumsumI, ih]

theorem sum_resolved (l : List Int) (r : Nat) (h : ∀ e ∈ l, e = -1 ∨ 0 ≤ e) :
    ((l.map (fun e => if e = -1 then ((r : Nat) : Int) else e)).map Int.toNat).sum =
      ((l.filter (fun e => e ≠ -1)).map Int.toNat).sum + l.count (-1) * r := by
  induction l with
  | nil => simp
  | cons e es ih =>
    have hih := ih (fun x hx => h x (by simp [hx]))
    simp only [List.map_map, ne_eq, decide_not] at hih
    by_cases he : e = -1
    · subst he
      simp [List.count_cons, hih]
      ring
    · simp [List.count_cons, he, hih]
      omega

theorem tfSplit_eq (t : NDArr) (sizes : List Int) (axis : Nat) :
    tfSplit t sizes axis =
      npSplit t (((cumsumI (splitResolved t sizes axis)).dropLast).map Int.toNat) axis := rfl

/-- C9 (amended): under the claim's conditions, amended so that the
sizes list is non-empty and, when no `-1` occurs, the non-negative
entries sum exactly to the axis length, the shim's `split` returns one
subarray per list entry, and the subarray for entry `j` has the shape of
`value` with the extent along `axis` replaced by that entry (`-1`
replaced by the remaining length). -/
theorem split_spec (t : NDArr) (sh : List Nat) (sizes : List Int) (axis : Nat)
    (hsh : hasShape t sh = true)
    (hax : axis < sh.length)
    (hne : sizes ≠ [])
    (hent : ∀ e ∈ sizes, e = -1 ∨ 0 ≤ e)
    (hone : sizes.count (-1) ≤ 1)
    (hsum : ((sizes.filter (fun e => e ≠ -1)).map Int.toNat).sum ≤ sh.getD axis 0)
    (hexact : (-1 : Int) ∉ sizes →
      ((sizes.filter (fun e => e ≠ -1)).map Int.toNat).sum = sh.getD axis 0) :
    (tfSplit t sizes axis).length = sizes.length ∧
    ∀ j, j < sizes.length →
      hasShape ((tfSplit t sizes axis).getD j (.node []))
        (sh.set axis ((resolveSizes sizes (sh.getD axis 0)).getD j 0)) = true := by
  have hlpos : 0 < sizes.length := List.length_pos.mpr hne
  have hcontT : (-1 : Int) ∈ sizes → sizes.contains (-1) = true := fun hm => by
    simpa [List.elem_eq_mem] using hm
  have hcontF : (-1 : Int) ∉ sizes → sizes.contains (-1) = false := fun hm => by
    simpa [List.elem_eq_mem] using hm
  have hreslen : (splitResolved t sizes axis).length = sizes.length := by
    by_cases hm : (-1 : Int) ∈ sizes
    · simp only [splitResolved, hcontT hm, if_true, List.length_map]
    · simp only [splitResolved, hcontF hm, Bool.false_eq_true, if_false]
  have hresnn : ∀ e ∈ splitResolved t sizes axis, 0 ≤ e := by
    intro e he
    by_cases hm : (-1 : Int) ∈ sizes
    · simp only [splitResolved, hcontT hm, if_true] at he
      obtain ⟨a, ha, rfl⟩ := List.mem_map.mp he
      by_cases hae : a = -1
      · simp only [hae, if_pos rfl]
        exact le_max_left 0 _
      · simpa [hae] using (hent a ha).resolve_left hae
    · simp only [splitResolved, hcontF hm, Bool.false_eq_true, if_false] at he
      exact (hent e he).resolve_left (fun hc1 => hm (hc1 ▸ he))
  have hidxs : ((cumsumI (splitResolved t sizes axis)).dropLast).map Int.toNat =
      (cumsumN ((splitResolved t sizes axis).map Int.toNat)).dropLast := by
    rw [List.map_dropLast, cumsumI_toNat _ hresnn]
  have hidxlen : (((cumsumI (splitResolved t sizes axis)).dropLast).map Int.toNat).length =
      sizes.length - 1 := by
    rw [List.length_map, List.length_dropLast, length_cumsumI, hreslen]
  refine ⟨?_, ?_⟩
  · rw [tfSplit_eq, npSplit_length t sh _ axis hsh hax, hidxlen]
    omega
  · intro j hj
    by_cases hz : ∀ i, i < axis → sh.getD i 0 ≠ 0
    · -- all dimensions before the split axis are non-zero: the source's
      -- shape lookup agrees with `sh` and the resolved sizes sum to the
      -- axis length
      have hns : (splitResolved t sizes axis).map Int.toNat =
          resolveSizes sizes (sh.getD axis 0) ∧
          ((splitResolved t sizes axis).map Int.toNat).sum = sh.getD axis 0 := by
        by_cases hm : (-1 : Int) ∈ sizes
        · have hcont : sizes.contains (-1) = true := hcontT hm
          have hdc : (dims t).getD axis 0 = sh.getD axis 0 := dims_getD t sh hsh axis hax hz
          have hfilnn : ∀ e ∈ sizes.filter (fun e => e ≠ -1), 0 ≤ e := by
            intro e he
            have hmem := List.mem_of_mem_filter he
            have hp : e ≠ -1 := by simpa using List.of_mem_filter he
            exact (hent e hmem).resolve_left hp
          have htot : (((sizes.filter (fun e => e ≠ -1)).map Int.toNat).sum : Int) =
              (sizes.filter (fun e => e ≠ -1)).sum := sum_toNat_eq _ hfilnn
          have hremN : max 0 (((dims t).getD axis 0 : Int) -
              (sizes.filter (fun e => e ≠ -1)).sum) =
              ((sh.getD axis 0 - ((sizes.filter (fun e => e ≠ -1)).map Int.toNat).sum : Nat) :
                Int) := by
            rw [hdc, ← htot]
            omega
          have hres : splitResolved t sizes axis =
              sizes.map (fun e => if e = -1 then
                ((sh.getD axis 0 -
                  ((sizes.filter (fun e => e ≠ -1)).map Int.toNat).sum : Nat) : Int) else e) := by
            simp only [splitResolved, hcont, if_true]
            rw [hremN]
          have hcnt : sizes.count (-1) = 1 :=
            Nat.le_antisymm hone (List.count_pos_iff.mpr hm)
          constructor
          · rw [hres, resolveSizes, List.map_map]
            refine List.map_congr_left (fun e he => ?_)
            by_cases hae : e = -1 <;> simp [hae]
          · rw [hres, sum_resolved sizes _ hent, hcnt]
            omega
        · have hres : splitResolved t sizes axis = sizes := by
            simp only [splitResolved, hcontF hm, Bool.false_eq_true, if_false]
          have hfil : sizes.filter (fun e => e ≠ -1) = sizes := by
            rw [List.filter_eq_self]
            intro a ha
            have : a ≠ -1 := fun hc1 => hm (hc1 ▸ ha)
            simpa using this
          have hsum' := hexact hm
          rw [hfil] at hsum'
          constructor
          · rw [hres, resolveSizes]
            refine List.map_congr_left (fun e he => ?_)
            have : e ≠ -1 := fun hc1 => hm (hc1 ▸ he)
            simp [this]
          · rw [hres]
            exact hsum'
      obtain ⟨hmap, hsumr⟩ := hns
      rw [tfSplit_eq, hidxs, ← hmap]
      have hnsne : (splitResolved t sizes axis).map Int.toNat ≠ [] := by
        intro hc
        have := congrArg List.length hc
        simp only [List.length_map, hreslen, List.length_nil] at this
        omega
      exact npSplit_shape axis t sh ((splitResolved t sizes axis).map Int.toNat) hsh hax
        hnsne hsumr j (by simp only [List.length_map, hreslen]; exact hj)
    · -- some dimension before the split axis is zero: every piece is a
      -- degenerate array having any shape with that zero dimension
      push_neg at hz
      obtain ⟨k, hk, hk0⟩ := hz
      rw [tfSplit_eq]
      exact npSplit_shape_degenerate axis t sh _ k hsh hax hk hk0 j _
        (by rw [hidxlen]; omega)

/-- Witness for C8 at a concrete `2 × 3` array with `begin = [0, 1]`,
`size = [2, -1]`. -/
theorem slice_spec_witness :
    hasShape (_slice (.node [.node [.base 0, .base 1, .base 2],
        .node [.base 3, .base 4, .base 5]]) [0, 1] [2, -1])
      (effShape [0, 1] [2, -1] [2, 3] ++ ([2, 3] : List Nat).drop ([0, 1] : List Int).length)
        = true ∧
    (_slice (.node [.node [.base 0, .base 1, .base 2],
        .node [.base 3, .base 4, .base 5]]) [0, 1] [2, -1]).get ([1, 1] ++ []) =
      (NDArr.node [.node [.base 0, .base 1, .base 2],
        .node [.base 3, .base 4, .base 5]]).get (shiftIdx [0, 1] [1, 1] ++ []) := by
  have h := slice_spec (.node [.node [.base 0, .base 1, .base 2],
      .node [.base 3, .base 4, .base 5]]) [2, 3] [0, 1] [2, -1] (by decide) (by decide)
  exact ⟨h.1, h.2 [1, 1] [] (by decide)⟩

/-- Witness for C9 at a concrete length-5 vector split as `[2, -1]`. -/
theorem split_spec_witness :
    (tfSplit (.node [.base 0, .base 1, .base 2, .base 3, .base 4]) [2, -1] 0).length = 2 ∧
    hasShape ((tfSplit (.node [.base 0, .base 1, .base 2, .base 3, .base 4]) [2, -1] 0).getD 1
      (.node [])) (([5] : List Nat).set 0 ((resolveSizes [2, -1] (([5] : List Nat).getD 0 0)).getD
        1 0)) = true := by
  have h := split_spec (.node [.base 0, .base 1, .base 2, .base 3, .base 4]) [5] [2, -1] 0
    (by decide) (by decide) (by decide) (by decide) (by decide) (by decide)
    (fun hnot => absurd (show (-1 : Int) ∈ ([2, -1] : List Int) by decide) hnot)
  exact ⟨h.1, h.2 1 (by decide)⟩

/-!
### The shim's public surface as a load-time module table (C6, C7)

The module `numpy_array.py` is loaded by executing its top-level
statements: the 30 public bindings `concat` … `zeros_like` are entered
into the module namespace, in source order.  After load, a process is a
sequence of calls to those bindings.

The semantics below can express stateful behaviour: a function value
(`ShimFun`) may read a module-level variable (`globalReader`) or assign
one (`globalWriter`), and `callFun` threads the module namespace
accordingly.  Each of the 30 source bodies is translated as a `pureFn`
because it contains no `global` statement and no assignment to a module
attribute — a fact the translation makes checkable binding by binding.

The shim's own code (argument plumbing, the `NotImplementedError`
checks, `mode.lower()`, the `num is None` fallback of `unstack`, the
scalar-versus-list branch of `split`, …) is embedded directly.  The
external array-library kernels it merely delegates to (`np.concatenate`,
`np.linspace`, `np.pad`, the `linalg_impl` norm, …), whose code is not
part of this excerpt, are universally quantified parameters
(`NumpyPrims`): any pure function, as the spec's concurrency section
asserts ("All operations are synchronous, single-threaded, stateless
transformations").  Kernels already modelled concretely for other
claims (`np.take`, `np.flip`, `np.split` with a size list, `np.ones`,
`np.zeros`, slicing) are used directly.
-/

/-- `_rank`: `np.array(input).ndim`. -/
def _rank (input : NDArr) : Nat := (dims input).length

/-- `_size`: `np.prod(np.array(input).shape)` (dtype cast not
modelled). -/
def _size (input : NDArr) : Nat := (dims input).prod

/-- A Python value crossing the shim's call boundary: `None`, scalars,
strings, arrays, lists of arrays, backend values, and integer
lists/pairs (shapes, sizes, paddings). -/
inductive PyVal where
  | noneV : PyVal
  | intV : Int → PyVal
  | boolV : Bool → PyVal
  | strV : String → PyVal
  | arr : NDArr → PyVal
  | arrList : List NDArr → PyVal
  | bval : BVal → PyVal
  | intList : List Int → PyVal
  | intPairs : List (Int × Int) → PyVal

/-- A Python function value bound in the module namespace.  A body may
be pure, or read a module-level variable, or assign one; the source
translation chooses the constructor that matches the body. -/
inductive ShimFun where
  | pureFn : (List PyVal → Except NpError PyVal) → ShimFun
  | globalReader : String → (Option PyVal → List PyVal → Except NpError PyVal) → ShimFun
  | globalWriter : String → (List PyVal → PyVal × Except NpError PyVal) → ShimFun

/-- An object in the module namespace: a function or a plain value. -/
inductive PyObj where
  | fn : ShimFun → PyObj
  | val : PyVal → PyObj

/-- The module namespace: names bound to objects, in binding order. -/
abbrev GlobalEnv := List (String × PyObj)

/-- Lookup of a name in the module namespace. -/
def lookupEnv : GlobalEnv → String → Option PyObj
  | [], _ => none
  | (m, o) :: rest, n => if m = n then some o else lookupEnv rest n

/-- Assignment of a module-level name (rebinding it if present). -/
def envSet : GlobalEnv → String → PyObj → GlobalEnv
  | [], n, o => [(n, o)]
  | (m, o0) :: rest, n, o => if m = n then (n, o) :: rest else (m, o0) :: envSet rest n o

/-- Calling a function value against the module namespace: a pure body
leaves the namespace alone and ignores it; a reader consults it; a
writer rebinds a name. -/
def callFun (env : GlobalEnv) (f : ShimFun) (args : List PyVal) :
    GlobalEnv × Except NpError PyVal :=
  match f with
  | .pureFn g => (env, g args)
  | .globalReader n g =>
      (env, g (match lookupEnv env n with | some (.val v) => some v | _ => none) args)
  | .globalWriter n g =>
      let (v, r) := g args
      (envSet env n (.val v), r)

/-- The external kernels the shim delegates to, as parameters: any pure
function of the arguments.  Axis/size arguments are passed as the
integers the source hands over; each kernel may signal an error. -/
structure NumpyPrims where
  convert_to_tensor : NDArr → NDArr
  concatenate : List NDArr → Int → Except NpError NDArr
  expand_dims : NDArr → Int → Except NpError NDArr
  linspace : Int → Int → Int → Except NpError NDArr
  meshgrid : List NDArr → Except NpError (List NDArr)
  normImpl : List PyVal → Except NpError PyVal
  pad : NDArr → List (Int × Int) → String → Int → Except NpError NDArr
  arange : Int → Option Int → Int → Except NpError NDArr
  reshape : NDArr → List Int → Except NpError NDArr
  roll : NDArr → Int → Option Int → Except NpError NDArr
  searchsorted : NDArr → NDArr → String → Except NpError NDArr
  squeeze : NDArr → Option Int → Except NpError NDArr
  splitSections : NDArr → Int → Int → Except NpError (List NDArr)
  stack : List NDArr → Int → Except NpError NDArr
  tile : NDArr → List Int → Except NpError NDArr
  transpose : NDArr → Option (List Int) → Except NpError NDArr
  conjugate : NDArr → NDArr
  whereFn : NDArr → Option NDArr → Option NDArr → Except NpError PyVal

mutual

/-- Elementwise multiplication of an array by a scalar (`value * arr`,
used by `fill`). -/
def scalarMulArr (v : Int) : NDArr → NDArr
  | .base x => .base (v * x)
  | .node xs => .node (scalarMulArrList v xs)

/-- `scalarMulArr` on each entry of a list of subarrays. -/
def scalarMulArrList (v : Int) : List NDArr → List NDArr
  | [] => []
  | t :: ts => scalarMulArr v t :: scalarMulArrList v ts

end

mutual

/-- Replacement of every scalar leaf by an array. -/
def mapLeavesArr (f : Int → NDArr) : NDArr → NDArr
  | .base x => f x
  | .node xs => .node (mapLeavesArrList f xs)

/-- `mapLeavesArr` on each entry of a list of subarrays. -/
def mapLeavesArrList (f : Int → NDArr) : List NDArr → List NDArr
  | [] => []
  | t :: ts => mapLeavesArr f t :: mapLeavesArrList f ts

end

/-- The `zeros_like`/`tile`/`arange`/`where` pipeline of `_one_hot`,
reduced for integer indices: since the indices are integers, the
source's float test `|arange(depth) - indices[..., None]| < 0.1` holds
iff the entries are equal, so each index leaf `i` becomes the length-
`depth` one-hot row `[off, …, on, …, off]`. -/
def oneHotCore (indices : NDArr) (depth : Nat) (onv offv : Int) : NDArr :=
  mapLeavesArr
    (fun i => .node ((List.range depth).map (fun k => .base (if (k : Int) = i then onv else offv))))
    indices

mutual

/-- Indexing the last axis (the axis whose children are leaves) at `k`. -/
def stripLastAxis : NDArr → Nat → NDArr
  | .base x, _ => .base x
  | .node xs, k =>
      if xs.all (fun c => match c with | .base _ => true | .node _ => false)
      then xs.getD k (.base 0)
      else .node (stripLastAxisList xs k)

/-- `stripLastAxis` on each entry of a list of subarrays. -/
def stripLastAxisList : List NDArr → Nat → List NDArr
  | [], _ => []
  | t :: ts, k => stripLastAxis t k :: stripLastAxisList ts k

end

/-- The extent of the last axis (following first children). -/
def lastDim (t : NDArr) : Nat :=
  match (dims t).reverse with
  | [] => 0
  | d :: _ => d

/-- `np.moveaxis(y, -1, axis)` for the arrays produced by `oneHotCore`:
the last axis is moved to position `axis`. -/
def moveLastTo : NDArr → Nat → NDArr
  | .base x, _ => .base x
  | .node xs, 0 =>
      if xs.all (fun c => match c with | .base _ => true | .node _ => false)
      then .node xs
      else .node ((List.range (lastDim (.node xs))).map (fun k => stripLastAxis (.node xs) k))
  | .node xs, a + 1 => .node (xs.map (fun c => moveLastTo c a))

/-- The arrays among a variadic argument list (`np.meshgrid(*args)`). -/
def collectArrs : List PyVal → Option (List NDArr)
  | [] => some []
  | .arr t :: rest => (collectArrs rest).map (t :: ·)
  | _ => none

/-- An optional-array argument (`x`/`y` of `where`, default `None`). -/
def optArr : PyVal → Option NDArr
  | .arr t => some t
  | _ => none

/-- `concat`: `np.concatenate([ops.convert_to_tensor(v) for v in values], axis)`. -/
def concatB (p : NumpyPrims) : List PyVal → Except NpError PyVal
  | [.arrList values, .intV axis, _] =>
      (p.concatenate (values.map p.convert_to_tensor) axis).map .arr
  | _ => .error .typeError

/-- `expand_dims`: `np.expand_dims(input, axis)`. -/
def expandDimsB (p : NumpyPrims) : List PyVal → Except NpError PyVal
  | [.arr input, .intV axis, _] => (p.expand_dims input axis).map .arr
  | _ => .error .typeError

/-- `fill`: `value * np.ones(dims, np.array(value).dtype)`. -/
def fillB : List PyVal → Except NpError PyVal
  | [.intList ds, .intV value, _] =>
      .ok (.arr (scalarMulArr value (npFull 1 (ds.map Int.toNat))))
  | _ => .error .typeError

/-- `gather`: the `_gather` embedding (checks, then `np.take`). -/
def gatherB : List PyVal → Except NpError PyVal
  | [.arr params, .arr indices, vi, axisv, .intV bd, nm] =>
      (_gather params indices
        (match vi with | .boolV b => some b | _ => none)
        (match axisv with | .intV a => some a.toNat | _ => none)
        bd
        (match nm with | .strV s => some s | _ => none)).map .arr
  | _ => .error .typeError

/-- `gather_nd`: the `_gather_nd` embedding (always raises). -/
def gatherNdB : List PyVal → Except NpError PyVal
  | [.arr params, .arr indices, .intV bd, nm] =>
      (_gather_nd params indices bd
        (match nm with | .strV s => some s | _ => none)).map .arr
  | _ => .error .typeError

/-- `reverse`: the `_reverse` embedding (scalar or list axis). -/
def reverseB : List PyVal → Except NpError PyVal
  | [.arr tensor, .intV a, _] => .ok (.arr (tfReverse tensor (.scalar a.toNat)))
  | [.arr tensor, .intList as, _] =>
      .ok (.arr (tfReverse tensor (.list (as.map Int.toNat))))
  | _ => .error .typeError

/-- `linspace`: `np.linspace(start, stop, num).astype(...)`. -/
def linspaceB (p : NumpyPrims) : List PyVal → Except NpError PyVal
  | [.intV start, .intV stop, .intV num, _] => (p.linspace start stop num).map .arr
  | _ => .error .typeError

/-- `meshgrid`: `np.meshgrid(*args)`. -/
def meshgridB (p : NumpyPrims) (args : List PyVal) : Except NpError PyVal :=
  match collectArrs args with
  | some ts => (p.meshgrid ts).map .arrList
  | none => .error .typeError

/-- `one_hot`: the `_one_hot` embedding: defaulting of `on_value`/
`off_value`, the integer-reduced pipeline, and the final
`np.moveaxis(y_out, -1, axis)` when `axis` is given. -/
def oneHotB : List PyVal → Except NpError PyVal
  | [.arr indices, .intV depth, onv, offv, axisv, _, _] =>
      let onV := match onv with | .intV v => v | _ => 1
      let offV := match offv with | .intV v => v | _ => 0
      let y := oneHotCore indices depth.toNat onV offV
      match axisv with
      | .intV a => .ok (.arr (moveLastTo y a.toNat))
      | _ => .ok (.arr y)
  | _ => .error .typeError

/-- `ones`: `np.ones(shape, dtype)`. -/
def onesB : List PyVal → Except NpError PyVal
  | [.intList sh, _, _] => .ok (.arr (npFull 1 (sh.map Int.toNat)))
  | _ => .error .typeError

/-- `ones_like`: the `_ones_like` embedding. -/
def onesLikeB : List PyVal → Except NpError PyVal
  | [.bval input, _, _] => .ok (.bval (_ones_like input))
  | _ => .error .typeError

/-- `pad`: `np.pad(tensor, paddings, mode.lower(), constant_values)`. -/
def padB (p : NumpyPrims) : List PyVal → Except NpError PyVal
  | [.arr tensor, .intPairs paddings, .strV mode, .intV cv, _] =>
      (p.pad tensor paddings mode.toLower cv).map .arr
  | _ => .error .typeError

/-- `range`: `np.arange(start, limit, delta).astype(...)`. -/
def rangeB (p : NumpyPrims) : List PyVal → Except NpError PyVal
  | [.intV start, limv, .intV delta, _, _] =>
      (p.arange start (match limv with | .intV l => some l | _ => none) delta).map .arr
  | _ => .error .typeError

/-- `rank`: `np.array(input).ndim`. -/
def rankB : List PyVal → Except NpError PyVal
  | [.arr input, _] => .ok (.intV (_rank input))
  | _ => .error .typeError

/-- `reshape`: `np.reshape(tensor, shape)`. -/
def reshapeB (p : NumpyPrims) : List PyVal → Except NpError PyVal
  | [.arr tensor, .intList sh, _] => (p.reshape tensor sh).map .arr
  | _ => .error .typeError

/-- `roll`: `np.roll(input, shift, axis)`. -/
def rollB (p : NumpyPrims) : List PyVal → Except NpError PyVal
  | [.arr input, .intV shift, axisv] =>
      (p.roll input shift (match axisv with | .intV a => some a | _ => none)).map .arr
  | _ => .error .typeError

/-- `searchsorted`: the `_searchsorted` embedding
(`np.searchsorted(..., side=side, sorter=None).astype(out_type)`). -/
def searchsortedB (p : NumpyPrims) : List PyVal → Except NpError PyVal
  | [.arr sorted_sequence, .arr values, .strV side, _, _] =>
      (p.searchsorted sorted_sequence values side).map .arr
  | _ => .error .typeError

/-- `shape`: the `_shape` embedding. -/
def shapeB : List PyVal → Except NpError PyVal
  | [.bval input, _, _] => .ok (.bval (_shape input))
  | _ => .error .typeError

/-- `size`: the `_size` embedding. -/
def sizeB : List PyVal → Except NpError PyVal
  | [.arr input, _, _] => .ok (.intV (_size input))
  | _ => .error .typeError

/-- `slice`: the `_slice` embedding. -/
def sliceB : List PyVal → Except NpError PyVal
  | [.arr input_, .intList bs, .intList ss, _] => .ok (.arr (_slice input_ bs ss))
  | _ => .error .typeError

/-- `split`: the `_split` embedding: a 1-D size list goes through the
`-1`/cumsum resolution (`tfSplit`); a scalar count is `np.split` into
equal sections. -/
def splitB (p : NumpyPrims) : List PyVal → Except NpError PyVal
  | [.arr value, .intList sizes, .intV axis, _, _] =>
      .ok (.arrList (tfSplit value sizes axis.toNat))
  | [.arr value, .intV n, .intV axis, _, _] =>
      (p.splitSections value n axis).map .arrList
  | _ => .error .typeError

/-- `squeeze`: `np.squeeze(input, axis)`. -/
def squeezeB (p : NumpyPrims) : List PyVal → Except NpError PyVal
  | [.arr input, axisv, _] =>
      (p.squeeze input (match axisv with | .intV a => some a | _ => none)).map .arr
  | _ => .error .typeError

/-- `stack`: `np.stack(values, axis)`. -/
def stackB (p : NumpyPrims) : List PyVal → Except NpError PyVal
  | [.arrList values, .intV axis, _] => (p.stack values axis).map .arr
  | _ => .error .typeError

/-- `tile`: `np.tile(input, multiples)`. -/
def tileB (p : NumpyPrims) : List PyVal → Except NpError PyVal
  | [.arr input, .intList multiples, _] => (p.tile input multiples).map .arr
  | _ => .error .typeError

/-- `transpose`: the `_transpose` embedding
(`x = np.transpose(a, perm); np.conjugate(x) if conjugate else x`). -/
def transposeB (p : NumpyPrims) : List PyVal → Except NpError PyVal
  | [.arr a, permv, .boolV conj, _] =>
      match p.transpose a (match permv with | .intList pm => some pm | _ => none) with
      | .error e => .error e
      | .ok x => .ok (.arr (if conj then p.conjugate x else x))
  | _ => .error .typeError

/-- `unstack`: `tuple(np.squeeze(x, axis=axis) for x in np.split(value,
value.shape[axis] if num is None else num, axis))`. -/
def unstackB (p : NumpyPrims) : List PyVal → Except NpError PyVal
  | [.arr value, numv, .intV axis, _] =>
      let n : Int := match numv with
        | .intV n => n
        | _ => ((dims value).getD axis.toNat 0 : Int)
      match p.splitSections value n axis with
      | .error e => .error e
      | .ok pieces =>
          match pieces.mapM (fun x => p.squeeze x (some axis)) with
          | .error e => .error e
          | .ok ys => .ok (.arrList ys)
  | _ => .error .typeError

/-- `where`: `np.where(condition, x, y)`. -/
def whereB (p : NumpyPrims) : List PyVal → Except NpError PyVal
  | [.arr condition, xv, yv, _] => p.whereFn condition (optArr xv) (optArr yv)
  | _ => .error .typeError

/-- `zeros`: `np.zeros(shape, dtype)`. -/
def zerosB : List PyVal → Except NpError PyVal
  | [.intList sh, _, _] => .ok (.arr (npFull 0 (sh.map Int.toNat)))
  | _ => .error .typeError

/-- `zeros_like`: the `_zeros_like` embedding. -/
def zerosLikeB : List PyVal → Except NpError PyVal
  | [.bval input, _, _] => .ok (.bval (_zeros_like input))
  | _ => .error .typeError

/-- Module load: the 30 public bindings of `numpy_array.py`, entered in
source order (`concat` at line 210 through `zeros_like` at line 328;
`utils.copy_docstring` only attaches a docstring and returns the
function unchanged).  Every body is a `pureFn`: none of the source
bodies contains a `global` statement or an assignment to a module
attribute. -/
def loadModule (p : NumpyPrims) : GlobalEnv :=
  [("concat", .fn (.pureFn (concatB p))),
   ("expand_dims", .fn (.pureFn (expandDimsB p))),
   ("fill", .fn (.pureFn fillB)),
   ("gather", .fn (.pureFn gatherB)),
   ("gather_nd", .fn (.pureFn gatherNdB)),
   ("reverse", .fn (.pureFn reverseB)),
   ("linspace", .fn (.pureFn (linspaceB p))),
   ("meshgrid", .fn (.pureFn (meshgridB p))),
   ("norm", .fn (.pureFn p.normImpl)),
   ("one_hot", .fn (.pureFn oneHotB)),
   ("ones", .fn (.pureFn onesB)),
   ("ones_like", .fn (.pureFn onesLikeB)),
   ("pad", .fn (.pureFn (padB p))),
   ("range", .fn (.pureFn (rangeB p))),
   ("rank", .fn (.pureFn rankB)),
   ("reshape", .fn (.pureFn (reshapeB p))),
   ("roll", .fn (.pureFn (rollB p))),
   ("searchsorted", .fn (.pureFn (searchsortedB p))),
   ("shape", .fn (.pureFn shapeB)),
   ("size", .fn (.pureFn sizeB)),
   ("slice", .fn (.pureFn sliceB)),
   ("split", .fn (.pureFn (splitB p))),
   ("squeeze", .fn (.pureFn (squeezeB p))),
   ("stack", .fn (.pureFn (stackB p))),
   ("tile", .fn (.pureFn (tileB p))),
   ("transpose", .fn (.pureFn (transposeB p))),
   ("unstack", .fn (.pureFn (unstackB p))),
   ("where", .fn (.pureFn (whereB p))),
   ("zeros", .fn (.pureFn zerosB)),
   ("zeros_like", .fn (.pureFn zerosLikeB))]

/-- Whether a namespace entry is a function with a pure body. -/
def PyObj.isPureFn : PyObj → Bool
  | .fn (.pureFn _) => true
  | _ => false

theorem loadModule_all_pure (p : NumpyPrims) :
    (loadModule p).all (fun e => e.2.isPureFn) = true := rfl

/-- C6: every shim operation — each of the 30 public bindings of the
module, for any choice of the external pure kernels — is a stateless
deterministic function: calling it returns the module namespace
unchanged, and the result depends only on the call's arguments, not on
the namespace it runs against (all argument values are immutable in
this model).  Each body is a `pureFn` even though the semantics admits
global readers and writers. -/
theorem shim_stateless_deterministic (p : NumpyPrims) (nm : String) (f : ShimFun)
    (args : List PyVal) (env env' : GlobalEnv)
    (hmem : (nm, PyObj.fn f) ∈ loadModule p) :
    (callFun env f args).1 = env ∧
    (callFun env' f args).1 = env' ∧
    (callFun env f args).2 = (callFun env' f args).2 := by
  have hall := (List.all_eq_true.mp (loadModule_all_pure p)) (nm, PyObj.fn f) hmem
  cases f with
  | pureFn g => exact ⟨rfl, rfl, rfl⟩
  | globalReader n g => simp [PyObj.isPureFn] at hall
  | globalWriter n g => simp [PyObj.isPureFn] at hall

/-- An arbitrary instantiation of the external kernels, used only to
evaluate the table at one concrete point for the witness; the theorems
hold for every instantiation. -/
def someNumpyPrims : NumpyPrims where
  convert_to_tensor := id
  concatenate := fun _ _ => .error .typeError
  expand_dims := fun _ _ => .error .typeError
  linspace := fun _ _ _ => .error .typeError
  meshgrid := fun _ => .error .typeError
  normImpl := fun _ => .error .typeError
  pad := fun _ _ _ _ => .error .typeError
  arange := fun _ _ _ => .error .typeError
  reshape := fun _ _ => .error .typeError
  roll := fun _ _ _ => .error .typeError
  searchsorted := fun _ _ _ => .error .typeError
  squeeze := fun _ _ => .error .typeError
  splitSections := fun _ _ _ => .error .typeError
  stack := fun _ _ => .error .typeError
  tile := fun _ _ => .error .typeError
  transpose := fun _ _ => .error .typeError
  conjugate := id
  whereFn := fun _ _ _ => .error .typeError

/-- Witness for C6 at the `gather` binding, called on a concrete
array against two different namespaces. -/
theorem shim_stateless_deterministic_witness :
    (callFun (loadModule someNumpyPrims) (.pureFn gatherB)
      [.arr (.node [.base 7, .base 8]), .arr (.base 1), .noneV, .noneV, .intV 0,
        .noneV]).1 = loadModule someNumpyPrims ∧
    (callFun [] (.pureFn gatherB)
      [.arr (.node [.base 7, .base 8]), .arr (.base 1), .noneV, .noneV, .intV 0,
        .noneV]).1 = [] ∧
    (callFun (loadModule someNumpyPrims) (.pureFn gatherB)
      [.arr (.node [.base 7, .base 8]), .arr (.base 1), .noneV, .noneV, .intV 0,
        .noneV]).2 =
    (callFun [] (.pureFn gatherB)
      [.arr (.node [.base 7, .base 8]), .arr (.base 1), .noneV, .noneV, .intV 0,
        .noneV]).2 :=
  shim_stateless_deterministic someNumpyPrims "gather" (.pureFn gatherB)
    [.arr (.node [.base 7, .base 8]), .arr (.base 1), .noneV, .noneV, .intV 0, .noneV]
    (loadModule someNumpyPrims) []
    (by
      unfold loadModule
      repeat first
        | exact List.Mem.head _
        | apply List.Mem.tail)

/-- One process step: calling a name bound in the module namespace with
some arguments (a call on an unbound or non-function name leaves the
namespace alone). -/
structure CallEvent where
  name : String
  args : List PyVal

/-- The module namespace after one call. -/
def stepShim (env : GlobalEnv) (e : CallEvent) : GlobalEnv :=
  match lookupEnv env e.name with
  | some (.fn f) => (callFun env f e.args).1
  | _ => env

/-- The module namespace after a sequence of calls. -/
def runTrace (env : GlobalEnv) (es : List CallEvent) : GlobalEnv :=
  es.foldl stepShim env

/-- The `__all__` list of `numpy_array.py`. -/
def allNames : List String :=
  ["concat", "expand_dims", "fill", "gather", "gather_nd", "linspace", "meshgrid",
   "norm", "one_hot", "ones", "ones_like", "pad", "range", "rank", "reshape",
   "reverse", "roll", "searchsorted", "shape", "size", "slice", "split",
   "squeeze", "stack", "tile", "transpose", "unstack", "where", "zeros",
   "zeros_like"]

theorem lookupEnv_mem (env : GlobalEnv) (n : String) (o : PyObj)
    (h : lookupEnv env n = some o) : (n, o) ∈ env := by
  induction env with
  | nil => simp [lookupEnv] at h
  | cons e rest ih =>
    obtain ⟨m, o0⟩ := e
    by_cases hm : m = n
    · subst hm
      simp only [lookupEnv, if_true, eq_self_iff_true, Option.some.injEq] at h
      subst h
      exact List.mem_cons_self _ _
    · simp only [lookupEnv] at h
      rw [if_neg hm] at h
      exact List.mem_cons_of_mem _ (ih h)

theorem stepShim_of_all_pure (env : GlobalEnv)
    (henv : env.all (fun e => e.2.isPureFn) = true) (e : CallEvent) :
    stepShim env e = env := by
  unfold stepShim
  cases hl : lookupEnv env e.name with
  | none => rfl
  | some obj =>
    cases obj with
    | val v => rfl
    | fn f =>
      have hp := (List.all_eq_true.mp henv) _ (lookupEnv_mem env e.name _ hl)
      cases f with
      | pureFn g => rfl
      | globalReader n g => simp [PyObj.isPureFn] at hp
      | globalWriter n g => simp [PyObj.isPureFn] at hp

theorem runTrace_of_all_pure (env : GlobalEnv)
    (henv : env.all (fun e => e.2.isPureFn) = true) (es : List CallEvent) :
    runTrace env es = env := by
  induction es with
  | nil => rfl
  | cons e es ih =>
    show runTrace (stepShim env e) es = env
    rw [stepShim_of_all_pure env henv e]
    exact ih

/-- C7: the name-to-function table is populated once at module load time
and never mutated: for any choice of the external kernels, after any
sequence of calls to the bound operations the module namespace is
exactly the load-time table — no shim operation adds, removes, or
rebinds an entry — and its names are exactly the `__all__` list, so the
set of exported names is constant for the life of the process. -/
theorem shim_table_constant (p : NumpyPrims) (es : List CallEvent) :
    runTrace (loadModule p) es = loadModule p ∧
    ((loadModule p).map Prod.fst).Perm allNames := by
  constructor
  · exact runTrace_of_all_pure (loadModule p) (loadModule_all_pure p) es
  · have h : (loadModule p).map Prod.fst =
        ["concat", "expand_dims", "fill", "gather", "gather_nd", "reverse", "linspace",
         "meshgrid", "norm", "one_hot", "ones", "ones_like", "pad", "range", "rank",
         "reshape", "roll", "searchsorted", "shape", "size", "slice", "split",
         "squeeze", "stack", "tile", "transpose", "unstack", "where", "zeros",
         "zeros_like"] := rfl
    rw [h]
    decide

end NumpyShim

/-!
### Log-normal distribution identities (C4, C5)

The distribution implementation exercised by `lognormal_test.py` is not
part of this excerpt; the definitions below are modelled from the spec
(log-density formulas asserted by the tests, the glossary's definition
of the log-normal distribution, and KL divergence as the expectation of
the log-density ratio, which is the test's Monte Carlo estimand).
-/

namespace LogNormalSpec

open MeasureTheory ProbabilityTheory Real Filter

/-- The variance parameter `σ²` of a scale `σ`, as a non-negative real. -/
noncomputable def var (σ : ℝ) : NNReal := ⟨σ ^ 2, sq_nonneg σ⟩

theorem var_coe (σ : ℝ) : ((var σ : NNReal) : ℝ) = σ ^ 2 := rfl

theorem var_ne_zero {σ : ℝ} (hσ : 0 < σ) : var σ ≠ 0 := by
  intro h
  have h2 : ((var σ : NNReal) : ℝ) = 0 := by rw [h]; rfl
  rw [var_coe] at h2
  nlinarith

/-- Modelled from the spec: the log-normal distribution with location `μ`
and scale `σ` is the law of `exp` of a `Normal(μ, σ²)` variable (the
glossary: "a distribution of a variable whose logarithm is normally
distributed with parameters location μ and scale σ").  The distribution
class itself is outside this excerpt. -/
noncomputable def logNormalDist (μ σ : ℝ) : Measure ℝ :=
  (gaussianReal μ (var σ)).map Real.exp

/-- Modelled from the spec: the analytical log-density of
`LogNormal(μ, σ)` asserted by `testLogNormalPDF`:
`-ln(x σ √(2π)) - (ln x - μ)² / (2σ²)`. -/
noncomputable def logNormalLogPdf (μ σ x : ℝ) : ℝ :=
  -Real.log (x * σ * Real.sqrt (2 * π)) - (Real.log x - μ) ^ 2 / (2 * σ ^ 2)

/-- Modelled from the spec: the log-density of `Normal(μ, σ)` (the
reference distribution in `testLogNormalLogNormalKL`). -/
noncomputable def normalLogPdf (μ σ x : ℝ) : ℝ :=
  -Real.log (σ * Real.sqrt (2 * π)) - (x - μ) ^ 2 / (2 * σ ^ 2)

/-- Modelled from the spec: `KL(LogNormal_a ‖ LogNormal_b)` as the
`a`-expectation of the log-density ratio — the quantity the test
estimates by Monte Carlo (`mean(ln_a.log_prob(x) - ln_b.log_prob(x))`
for `x ~ ln_a`). -/
noncomputable def klLogNormal (mua sigmaa mub sigmab : ℝ) : ℝ :=
  ∫ x, (logNormalLogPdf mua sigmaa x - logNormalLogPdf mub sigmab x)
    ∂(logNormalDist mua sigmaa)

/-- Modelled from the spec: `KL(Normal_a ‖ Normal_b)` as the
`a`-expectation of the log-density ratio. -/
noncomputable def klNormal (mua sigmaa mub sigmab : ℝ) : ℝ :=
  ∫ x, (normalLogPdf mua sigmaa x - normalLogPdf mub sigmab x)
    ∂(gaussianReal mua (var sigmaa))

/-- Modelled from the spec: the mean of `LogNormal(μ, σ)` (the
`dist.mean()` the test compares against `exp(μ + σ²/2)`). -/
noncomputable def logNormalMean (μ σ : ℝ) : ℝ := ∫ x, x ∂(logNormalDist μ σ)

/-- Integration against `gaussianReal` is integration against its
density. -/
theorem integral_gaussianReal_eq (μ : ℝ) {v : NNReal} (hv : v ≠ 0) (g : ℝ → ℝ) :
    ∫ x, g x ∂(gaussianReal μ v) = ∫ x, gaussianPDFReal μ v x * g x := by
  rw [gaussianReal_of_var_ne_zero μ hv]
  have h1 : Measure.withDensity volume (gaussianPDF μ v) =
      Measure.withDensity volume
        (fun x => ((fun x => (gaussianPDFReal μ v x).toNNReal) x : ENNReal)) := rfl
  rw [h1, integral_withDensity_eq_integral_smul
    ((measurable_gaussianPDFReal μ v).real_toNNReal) g]
  congr 1
  funext x
  rw [NNReal.smul_def, Real.coe_toNNReal _ (gaussianPDFReal_nonneg μ v x), smul_eq_mul]

theorem integrable_sq_mul_exp {b : ℝ} (hb : 0 < b) :
    Integrable fun x : ℝ => x ^ 2 * Real.exp (-b * x ^ 2) := by
  have h := integrable_rpow_mul_exp_neg_mul_sq hb (by norm_num : (-1 : ℝ) < 2)
  have h2 : ∀ x : ℝ, x ^ (2 : ℝ) = x ^ 2 := fun x => by
    rw [show (2 : ℝ) = ((2 : ℕ) : ℝ) by norm_num, Real.rpow_natCast]
  simpa [h2] using h

theorem tendsto_exp_neg_sq_atTop {b : ℝ} (hb : 0 < b) :
    Tendsto (fun x : ℝ => Real.exp (-b * x ^ 2)) atTop (nhds 0) := by
  apply Real.tendsto_exp_atBot.comp
  exact Tendsto.const_mul_atTop_of_neg (by linarith) (tendsto_pow_atTop two_ne_zero)

theorem tendsto_exp_neg_sq_atBot {b : ℝ} (hb : 0 < b) :
    Tendsto (fun x : ℝ => Real.exp (-b * x ^ 2)) atBot (nhds 0) := by
  have h := (tendsto_exp_neg_sq_atTop hb).comp tendsto_neg_atBot_atTop
  have heq : ((fun x : ℝ => Real.exp (-b * x ^ 2)) ∘ Neg.neg) =
      fun x : ℝ => Real.exp (-b * x ^ 2) := by
    funext x
    simp [Function.comp, neg_sq]
  rwa [heq] at h

theorem tendsto_mul_exp_neg_sq_atTop {b : ℝ} (hb : 0 < b) :
    Tendsto (fun x : ℝ => x * Real.exp (-b * x ^ 2)) atTop (nhds 0) := by
  have h := rpow_mul_exp_neg_mul_sq_isLittleO_exp_neg hb 1
  have h1 : (fun x : ℝ => x ^ (1 : ℝ) * Real.exp (-b * x ^ 2)) =ᶠ[atTop]
      fun x : ℝ => x * Real.exp (-b * x ^ 2) := by
    filter_upwards with x
    rw [Real.rpow_one]
  have h2 := (h.congr' h1 (Filter.EventuallyEq.rfl)).trans_tendsto ?_
  · exact h2
  · apply Real.tendsto_exp_atBot.comp
    exact Tendsto.const_mul_atTop_of_neg (by norm_num) tendsto_id

theorem tendsto_mul_exp_neg_sq_atBot {b : ℝ} (hb : 0 < b) :
    Tendsto (fun x : ℝ => x * Real.exp (-b * x ^ 2)) atBot (nhds 0) := by
  have h := ((tendsto_mul_exp_neg_sq_atTop hb).neg).comp tendsto_neg_atBot_atTop
  have heq : ((fun x : ℝ => -(x * Real.exp (-b * x ^ 2))) ∘ Neg.neg) =
      fun x : ℝ => x * Real.exp (-b * x ^ 2) := by
    funext x
    simp [Function.comp, neg_sq]
  rw [heq] at h
  simpa using h

theorem integral_mul_exp_neg_sq {b : ℝ} (hb : 0 < b) :
    ∫ x : ℝ, x * Real.exp (-b * x ^ 2) = 0 := by
  have hderiv : ∀ x : ℝ, HasDerivAt (fun y : ℝ => -(2 * b)⁻¹ * Real.exp (-b * y ^ 2))
      (x * Real.exp (-b * x ^ 2)) x := by
    intro x
    have h1 : HasDerivAt (fun y : ℝ => -b * y ^ 2) (-b * (2 * x)) x := by
      simpa using (hasDerivAt_pow 2 x).const_mul (-b)
    have h3 := (h1.exp).const_mul (-(2 * b)⁻¹)
    convert h3 using 1
    field_simp
    ring
  have hint : Integrable fun x : ℝ => x * Real.exp (-b * x ^ 2) :=
    integrable_mul_exp_neg_mul_sq hb
  have htop : Tendsto (fun y : ℝ => -(2 * b)⁻¹ * Real.exp (-b * y ^ 2)) atTop (nhds 0) := by
    simpa using (tendsto_exp_neg_sq_atTop hb).const_mul (-(2 * b)⁻¹)
  have hbot : Tendsto (fun y : ℝ => -(2 * b)⁻¹ * Real.exp (-b * y ^ 2)) atBot (nhds 0) := by
    simpa using (tendsto_exp_neg_sq_atBot hb).const_mul (-(2 * b)⁻¹)
  have h := MeasureTheory.integral_of_hasDerivAt_of_tendsto hderiv hint hbot htop
  simpa using h

theorem integral_sq_mul_exp_neg_sq {b : ℝ} (hb : 0 < b) :
    ∫ x : ℝ, x ^ 2 * Real.exp (-b * x ^ 2) = Real.sqrt (π / b) / (2 * b) := by
  have hderiv : ∀ x : ℝ, HasDerivAt (fun y : ℝ => y * Real.exp (-b * y ^ 2))
      (Real.exp (-b * x ^ 2) - 2 * b * (x ^ 2 * Real.exp (-b * x ^ 2))) x := by
    intro x
    have h1 : HasDerivAt (fun y : ℝ => -b * y ^ 2) (-b * (2 * x)) x := by
      simpa using (hasDerivAt_pow 2 x).const_mul (-b)
    have h3 := (hasDerivAt_id x).mul h1.exp
    convert h3 using 1
    simp only [id_eq]
    ring
  have hint : Integrable fun x : ℝ =>
      Real.exp (-b * x ^ 2) - 2 * b * (x ^ 2 * Real.exp (-b * x ^ 2)) :=
    (integrable_exp_neg_mul_sq hb).sub ((integrable_sq_mul_exp hb).const_mul _)
  have heq := MeasureTheory.integral_of_hasDerivAt_of_tendsto hderiv hint
    (tendsto_mul_exp_neg_sq_atBot hb) (tendsto_mul_exp_neg_sq_atTop hb)
  rw [MeasureTheory.integral_sub (integrable_exp_neg_mul_sq hb)
    ((integrable_sq_mul_exp hb).const_mul _), MeasureTheory.integral_mul_left,
    integral_gaussian] at heq
  have h2b : (2 * b) ≠ 0 := by positivity
  field_simp at heq ⊢
  linarith

theorem integral_quad_exp {b : ℝ} (hb : 0 < b) (a1 a2 a3 : ℝ) :
    (∫ y : ℝ, (a1 + a2 * y + a3 * y ^ 2) * Real.exp (-b * y ^ 2)) =
      a1 * Real.sqrt (π / b) + a3 * (Real.sqrt (π / b) / (2 * b)) := by
  have h1 : Integrable fun y : ℝ => a1 * Real.exp (-b * y ^ 2) :=
    (integrable_exp_neg_mul_sq hb).const_mul a1
  have h2 : Integrable fun y : ℝ => a2 * (y * Real.exp (-b * y ^ 2)) :=
    (integrable_mul_exp_neg_mul_sq hb).const_mul a2
  have h3 : Integrable fun y : ℝ => a3 * (y ^ 2 * Real.exp (-b * y ^ 2)) :=
    (integrable_sq_mul_exp hb).const_mul a3
  have hexpand : (fun y : ℝ => (a1 + a2 * y + a3 * y ^ 2) * Real.exp (-b * y ^ 2)) =
      fun y : ℝ => a1 * Real.exp (-b * y ^ 2) + a2 * (y * Real.exp (-b * y ^ 2)) +
        a3 * (y ^ 2 * Real.exp (-b * y ^ 2)) := by
    funext y
    ring
  have h12 : Integrable fun y : ℝ => a1 * Real.exp (-b * y ^ 2) +
      a2 * (y * Real.exp (-b * y ^ 2)) := h1.add h2
  rw [hexpand, MeasureTheory.integral_add h12 h3, MeasureTheory.integral_add h1 h2,
    MeasureTheory.integral_mul_left, MeasureTheory.integral_mul_left,
    MeasureTheory.integral_mul_left, integral_gaussian, integral_mul_exp_neg_sq hb,
    integral_sq_mul_exp_neg_sq hb]
  ring

theorem integral_pdf_quad (μ σ : ℝ) (hσ : 0 < σ) (a1 a2 a3 : ℝ) :
    ∫ x, gaussianPDFReal μ (var σ) x * (a1 + a2 * (x - μ) + a3 * (x - μ) ^ 2) =
      a1 + a3 * σ ^ 2 := by
  have hb : (0 : ℝ) < (2 * σ ^ 2)⁻¹ := by positivity
  have hpt : (fun x : ℝ =>
      gaussianPDFReal μ (var σ) x * (a1 + a2 * (x - μ) + a3 * (x - μ) ^ 2)) =
      fun x : ℝ => (fun y : ℝ => (Real.sqrt (2 * π * σ ^ 2))⁻¹ *
        ((a1 + a2 * y + a3 * y ^ 2) * Real.exp (-(2 * σ ^ 2)⁻¹ * y ^ 2))) (x - μ) := by
    funext x
    simp only [gaussianPDFReal, var_coe]
    have hexp : -(x - μ) ^ 2 / (2 * σ ^ 2) = -(2 * σ ^ 2)⁻¹ * (x - μ) ^ 2 := by
      rw [neg_div, div_eq_inv_mul, ← neg_mul]
    rw [hexp]
    ring
  rw [hpt, MeasureTheory.integral_sub_right_eq_self (μ := volume)
    (fun y : ℝ => (Real.sqrt (2 * π * σ ^ 2))⁻¹ *
      ((a1 + a2 * y + a3 * y ^ 2) * Real.exp (-(2 * σ ^ 2)⁻¹ * y ^ 2))) μ,
    MeasureTheory.integral_mul_left, integral_quad_exp hb]
  have h1 : π / (2 * σ ^ 2)⁻¹ = 2 * π * σ ^ 2 := by
    have hσ2 : σ ^ 2 ≠ 0 := by positivity
    field_simp
    ring
  rw [h1]
  have hs : Real.sqrt (2 * π * σ ^ 2) ≠ 0 := by
    have : (0 : ℝ) < 2 * π * σ ^ 2 := by positivity
    positivity
  have hσ2 : σ ^ 2 ≠ 0 := by positivity
  have hsq : Real.sqrt (2 * π * σ ^ 2) ^ 2 = 2 * π * σ ^ 2 :=
    Real.sq_sqrt (by positivity)
  field_simp
  nlinarith [hsq, Real.sq_sqrt (show (0:ℝ) ≤ 2 * π * σ ^ 2 by positivity)]

theorem klNormal_eq (mua sigmaa mub sigmab : ℝ) (ha : 0 < sigmaa) (hb : 0 < sigmab) :
    klNormal mua sigmaa mub sigmab =
      (mua - mub) ^ 2 / (2 * sigmab ^ 2) +
        (1 / 2) * (sigmaa ^ 2 / sigmab ^ 2 - 1 - 2 * Real.log (sigmaa / sigmab)) := by
  have hva := var_ne_zero ha
  have ha2 : sigmaa ^ 2 ≠ 0 := by positivity
  have hb2 : sigmab ^ 2 ≠ 0 := by positivity
  rw [klNormal, integral_gaussianReal_eq mua hva]
  have hpt : (fun x : ℝ => gaussianPDFReal mua (var sigmaa) x *
      (normalLogPdf mua sigmaa x - normalLogPdf mub sigmab x)) =
      fun x : ℝ => gaussianPDFReal mua (var sigmaa) x *
        ((Real.log (sigmab * Real.sqrt (2 * π)) - Real.log (sigmaa * Real.sqrt (2 * π)) +
            (2 * sigmab ^ 2)⁻¹ * (mua - mub) ^ 2) +
          (2 * (2 * sigmab ^ 2)⁻¹ * (mua - mub)) * (x - mua) +
          ((2 * sigmab ^ 2)⁻¹ - (2 * sigmaa ^ 2)⁻¹) * (x - mua) ^ 2) := by
    funext x
    congr 1
    simp only [normalLogPdf]
    field_simp
    ring
  rw [hpt, integral_pdf_quad mua sigmaa ha]
  have hlog1 : Real.log (sigmab * Real.sqrt (2 * π)) =
      Real.log sigmab + Real.log (Real.sqrt (2 * π)) :=
    Real.log_mul (ne_of_gt hb) (by positivity)
  have hlog2 : Real.log (sigmaa * Real.sqrt (2 * π)) =
      Real.log sigmaa + Real.log (Real.sqrt (2 * π)) :=
    Real.log_mul (ne_of_gt ha) (by positivity)
  rw [hlog1, hlog2, Real.log_div (ne_of_gt ha) (ne_of_gt hb)]
  field_simp
  ring

theorem measurable_logNormalLogPdf (μ σ : ℝ) : Measurable (logNormalLogPdf μ σ) := by
  unfold logNormalLogPdf
  apply Measurable.sub
  · exact (Real.measurable_log.comp ((measurable_id.mul_const σ).mul_const _)).neg
  · exact ((Real.measurable_log.sub_const μ).pow_const 2).div_const _

theorem logNormalLogPdf_exp (μ σ : ℝ) (hσ : 0 < σ) (y : ℝ) :
    logNormalLogPdf μ σ (Real.exp y) = normalLogPdf μ σ y - y := by
  unfold logNormalLogPdf normalLogPdf
  rw [Real.log_exp, Real.log_mul (by positivity) (by positivity),
    Real.log_mul (Real.exp_ne_zero y) (ne_of_gt hσ), Real.log_exp,
    Real.log_mul (ne_of_gt hσ) (by positivity)]
  ring

theorem klLogNormal_eq_klNormal (mua sigmaa mub sigmab : ℝ)
    (ha : 0 < sigmaa) (hb : 0 < sigmab) :
    klLogNormal mua sigmaa mub sigmab = klNormal mua sigmaa mub sigmab := by
  rw [klLogNormal, logNormalDist,
    MeasureTheory.integral_map Real.measurable_exp.aemeasurable
      (((measurable_logNormalLogPdf mua sigmaa).sub
        (measurable_logNormalLogPdf mub sigmab)).aestronglyMeasurable),
    klNormal]
  apply MeasureTheory.integral_congr_ae
  apply MeasureTheory.ae_of_all
  intro y
  show logNormalLogPdf mua sigmaa (Real.exp y) - logNormalLogPdf mub sigmab (Real.exp y) =
    normalLogPdf mua sigmaa y - normalLogPdf mub sigmab y
  rw [logNormalLogPdf_exp mua sigmaa ha y, logNormalLogPdf_exp mub sigmab hb y]
  ring

/-- C4: for all locations and positive scales,
`KL(LogNormal(μ_a, σ_a) ‖ LogNormal(μ_b, σ_b))` equals
`KL(Normal(μ_a, σ_a) ‖ Normal(μ_b, σ_b))`, and both equal the closed
form `(μ_a-μ_b)²/(2σ_b²) + ½(σ_a²/σ_b² - 1 - 2 ln(σ_a/σ_b))`. -/
theorem logNormal_kl_spec (mua sigmaa mub sigmab : ℝ)
    (ha : 0 < sigmaa) (hb : 0 < sigmab) :
    klLogNormal mua sigmaa mub sigmab = klNormal mua sigmaa mub sigmab ∧
    klLogNormal mua sigmaa mub sigmab =
      (mua - mub) ^ 2 / (2 * sigmab ^ 2) +
        (1 / 2) * (sigmaa ^ 2 / sigmab ^ 2 - 1 - 2 * Real.log (sigmaa / sigmab)) :=
  ⟨klLogNormal_eq_klNormal mua sigmaa mub sigmab ha hb,
    (klLogNormal_eq_klNormal mua sigmaa mub sigmab ha hb).trans
      (klNormal_eq mua sigmaa mub sigmab ha hb)⟩

/-- Witness for C4 at the test's first batch entry
`μ_a = 3, σ_a = 1, μ_b = -3, σ_b = 1/2`. -/
theorem logNormal_kl_spec_witness :
    klLogNormal 3 1 (-3) (1 / 2) = klNormal 3 1 (-3) (1 / 2) ∧
    klLogNormal 3 1 (-3) (1 / 2) =
      (3 - (-3)) ^ 2 / (2 * (1 / 2) ^ 2) +
        (1 / 2) * (1 ^ 2 / (1 / 2) ^ 2 - 1 - 2 * Real.log (1 / (1 / 2))) :=
  logNormal_kl_spec 3 1 (-3) (1 / 2) (by norm_num) (by norm_num)

theorem gaussianPDFReal_mul_exp (μ σ : ℝ) (hσ : 0 < σ) (y : ℝ) :
    gaussianPDFReal μ (var σ) y * Real.exp y =
      Real.exp (μ + σ ^ 2 / 2) * gaussianPDFReal (μ + σ ^ 2) (var σ) y := by
  simp only [gaussianPDFReal, var_coe]
  have ha2 : σ ^ 2 ≠ 0 := by positivity
  have key : ∀ c eA ey eB eD : ℝ, eA * ey = eB * eD → c * eA * ey = eB * (c * eD) := by
    intro c eA ey eB eD h
    rw [mul_assoc, h]
    ring
  apply key
  rw [← Real.exp_add, ← Real.exp_add, Real.exp_eq_exp]
  field_simp
  ring

/-- C5: for every location `μ` and positive scale `σ`, the mean of
`LogNormal(μ, σ)` equals `exp(μ + σ²/2)`. -/
theorem logNormal_mean_spec (μ σ : ℝ) (hσ : 0 < σ) :
    logNormalMean μ σ = Real.exp (μ + σ ^ 2 / 2) := by
  have hv := var_ne_zero hσ
  rw [logNormalMean, logNormalDist,
    MeasureTheory.integral_map Real.measurable_exp.aemeasurable
      measurable_id'.aestronglyMeasurable,
    integral_gaussianReal_eq μ hv]
  have hpt : (fun y : ℝ => gaussianPDFReal μ (var σ) y * Real.exp y) =
      fun y : ℝ => Real.exp (μ + σ ^ 2 / 2) * gaussianPDFReal (μ + σ ^ 2) (var σ) y :=
    funext fun y => gaussianPDFReal_mul_exp μ σ hσ y
  rw [hpt, MeasureTheory.integral_mul_left,
    integral_gaussianPDFReal_eq_one (μ + σ ^ 2) hv, mul_one]

/-- Witness for C5 at `μ = 0, σ = 1`. -/
theorem logNormal_mean_spec_witness : logNormalMean 0 1 = Real.exp (0 + 1 ^ 2 / 2) :=
  logNormal_mean_spec 0 1 (by norm_num)

end LogNormalSpec
